import Mathlib

/-!
Verification of the chunking and retrieval core of the `ra` repository.

Text is modelled as `List Char` (the ASCII fragment of a Python `str`).
Every definition below is translated from the repository sources:
`src/rag/src/utils/text_processing.py`, `src/rag/src/api/routes.py` and
`src/rag/src/services/vector_store_service.py`.  The external collaborators
(the tiktoken tokenizer and the ChromaDB index) are abstracted as function
parameters, as the spec describes them in sections 4.4 and 4.7; distances and
similarity scores are modelled as rationals, since the retrieval logic only
ever compares and maximises them.
-/

/-- Python strings modelled as lists of characters. -/
abbrev Str := List Char

/-- The characters Python `str.split()` / `str.strip()` treat as whitespace. -/
def isWsC (c : Char) : Bool :=
  c == ' ' || c == '\t' || c == '\n' || c == '\r' || c == '\x0b' || c == '\x0c'

/-- Python `str.strip()`: drop leading and trailing whitespace. -/
def strip (s : Str) : Str :=
  ((s.dropWhile isWsC).reverse.dropWhile isWsC).reverse

/-- One step of whitespace tokenisation; state is (finished words, current word reversed). -/
def pyWordsStep (st : List Str × Str) (c : Char) : List Str × Str :=
  let (done, cur) := st
  if isWsC c then (if cur.isEmpty then (done, []) else (done ++ [cur.reverse], []))
  else (done, c :: cur)

/-- Python `str.split()` with no argument: split on whitespace runs, dropping empties. -/
def pyWords (s : Str) : List Str :=
  let (done, cur) := s.foldl pyWordsStep ([], [])
  if cur.isEmpty then done else done ++ [cur.reverse]

/-- The word-count fallback of `count_tokens` (text_processing.py line 116):
    `len(text.split())`.  The primary tokenizer (tiktoken) is an external
    dependency; the merger definitions below take the counter as a parameter. -/
def wordCount (s : Str) : Nat := (pyWords s).length

/-- Python `sep.join(pieces)` for a one-character separator. -/
def joinWith (c : Char) : List Str → Str
  | [] => []
  | [w] => w
  | w :: w2 :: ws => w ++ c :: joinWith c (w2 :: ws)

/-- The paragraph separator `"\n\n"` used when chunks are concatenated. -/
def nl2 : Str := ['\n', '\n']

/-- Python `text.split(sep)` for a one-character separator, keeping empty pieces. -/
def splitOnChar (sep : Char) : Str → List Str
  | [] => [[]]
  | c :: rest =>
    if c = sep then [] :: splitOnChar sep rest
    else
      match splitOnChar sep rest with
      | [] => [[c]]
      | l :: ls => (c :: l) :: ls

/-! ### Token-Budgeted Merger (`merge_paragraphs_semantically`, text_processing.py 240-289) -/

/-- One iteration of the paragraph loop (lines 258-273).
    State: (chunks, current_chunk, current_tokens). -/
def greedyStep (tok : Str → Nat) (maxTokens : Nat) (st : List Str × Str × Nat)
    (paragraph : Str) : List Str × Str × Nat :=
  let (chunks, cur, curTokens) := st
  let pTokens := tok paragraph
  if maxTokens < curTokens + pTokens ∧ ¬ cur.isEmpty then
    (chunks ++ [strip cur], paragraph, pTokens)
  else
    (chunks, if cur.isEmpty then paragraph else cur ++ nl2 ++ paragraph, curTokens + pTokens)

/-- The greedy accumulation pass (lines 254-277), including the final
    `if current_chunk.strip(): chunks.append(current_chunk.strip())`. -/
def greedyMerge (tok : Str → Nat) (maxTokens : Nat) (paragraphs : List Str) : List Str :=
  let st := paragraphs.foldl (greedyStep tok maxTokens) ([], [], 0)
  if (strip st.2.1).isEmpty then st.1 else st.1 ++ [strip st.2.1]

/-- `final_chunks[-1] = final_chunks[-1] + "\n\n" + chunk` (line 287). -/
def appendToLast (chunk : Str) : List Str → List Str
  | [] => []
  | [a] => [a ++ nl2 ++ chunk]
  | a :: b :: rest => a :: appendToLast chunk (b :: rest)

/-- One iteration of the minimum-token post-pass loop (lines 281-287). -/
def minTokenPostStep (tok : Str → Nat) (minTokens : Nat) (acc : List Str) (chunk : Str) :
    List Str :=
  if minTokens ≤ tok chunk then acc ++ [chunk]
  else if acc.isEmpty then acc
  else appendToLast chunk acc

/-- The minimum-token post-pass (lines 279-288). -/
def minTokenPostPass (tok : Str → Nat) (minTokens : Nat) (chunks : List Str) : List Str :=
  chunks.foldl (minTokenPostStep tok minTokens) []

/-- `merge_paragraphs_semantically` (lines 240-289), parametrised by the token counter. -/
def merge_paragraphs_semantically (tok : Str → Nat) (minTokens maxTokens : Nat)
    (paragraphs : List Str) : List Str :=
  if paragraphs.isEmpty then []
  else minTokenPostPass tok minTokens (greedyMerge tok maxTokens paragraphs)

/-- Specification-side description of the post-pass, used to state claim C1:
    starting from an accepted chunk `b`, each following undersized chunk is folded
    into it (never discarded); accepted chunks start new output entries. -/
def absorbSmall (small : Str → Prop) [DecidablePred small] (b : Str) : List Str → List Str
  | [] => [b]
  | c :: cs =>
    if small c then absorbSmall small (b ++ nl2 ++ c) cs
    else b :: absorbSmall small c cs

/-- Specification-side post-pass: undersized chunks before the first accepted chunk
    are dropped; afterwards every undersized chunk is absorbed into the closest
    preceding accepted chunk. -/
def specPostPass (small : Str → Prop) [DecidablePred small] : List Str → List Str
  | [] => []
  | c :: cs => if small c then specPostPass small cs else absorbSmall small c cs

/-! ### Sentence-Budgeted Merger (`create_fine_chunks`, text_processing.py 467-524) -/

/-- One character step of `re.split(r'(?<=[.!?])\s+', text)`.  State:
    (finished pieces, current piece reversed, inside-separator flag).  A separator
    is a maximal whitespace run whose first character is preceded by `.`, `!`
    or `?`; it is consumed greedily, matching the regex. -/
def sentStep (st : List Str × Str × Bool) (c : Char) : List Str × Str × Bool :=
  let (done, cur, inSep) := st
  if inSep then
    if isWsC c then (done, cur, true) else (done, [c], false)
  else if isWsC c && (match cur with
                      | p :: _ => p == '.' || p == '!' || p == '?'
                      | [] => false) then
    (done ++ [cur.reverse], [], true)
  else (done, c :: cur, false)

/-- `re.split(r'(?<=[.!?])\s+', text)` (line 486). -/
def sentenceSplitRaw (s : Str) : List Str :=
  let st := s.foldl sentStep ([], [], false)
  st.1 ++ [st.2.1.reverse]

/-- Line 487: `[s.strip() for s in sentences if s.strip()]`. -/
def fineSentences (text : Str) : List Str :=
  ((sentenceSplitRaw text).map strip).filter (fun s => !s.isEmpty)

/-- A string with no leading and no trailing whitespace. -/
def trimmedStr (s : Str) : Prop :=
  (∀ c, s.head? = some c → isWsC c = false) ∧ (∀ c, s.getLast? = some c → isWsC c = false)

/-- What holds of every sentence fed to the fine-chunk loop: nonempty and stripped. -/
def goodSentence (s : Str) : Prop := ¬ s.isEmpty ∧ trimmedStr s

/-- One iteration of the sentence loop of `create_fine_chunks` (lines 496-518).
    State: (chunks, current_chunk, current_sentences). -/
def fineStep (minChars maxChars minSentences maxSentences : Nat)
    (st : List Str × Str × Nat) (sentence : Str) : List Str × Str × Nat :=
  let (chunks, cur, cnt) := st
  let potential := if cur.isEmpty then sentence else cur ++ ' ' :: sentence
  if maxChars < potential.length ∧ ¬ cur.isEmpty then
    (if minChars ≤ cur.length ∧ minSentences ≤ cnt then chunks ++ [strip cur] else chunks,
     sentence, 1)
  else if maxSentences ≤ cnt ∧ ¬ cur.isEmpty then
    (if minChars ≤ cur.length then chunks ++ [strip cur] else chunks, sentence, 1)
  else (chunks, potential, cnt + 1)

/-- `create_fine_chunks` (lines 467-524). -/
def create_fine_chunks (text : Str) (minChars maxChars minSentences maxSentences : Nat) :
    List Str :=
  if text.isEmpty then []
  else
    let sents := fineSentences text
    if sents.isEmpty then []
    else
      let st := sents.foldl (fineStep minChars maxChars minSentences maxSentences) ([], [], 0)
      if ¬ st.2.1.isEmpty ∧ minChars ≤ st.2.1.length ∧ minSentences ≤ st.2.2 then
        st.1 ++ [strip st.2.1]
      else st.1

/-- Instrumented mirror of `fineStep` that keeps each chunk as its list of
    sentences instead of the joined string; used to state how many sentences a
    produced chunk holds. -/
def fineGroupStep (minChars maxChars minSentences maxSentences : Nat)
    (st : List (List Str) × List Str) (sentence : Str) : List (List Str) × List Str :=
  let (groups, gcur) := st
  if maxChars < (joinWith ' ' (gcur ++ [sentence])).length ∧ ¬ gcur.isEmpty then
    (if minChars ≤ (joinWith ' ' gcur).length ∧ minSentences ≤ gcur.length then
       groups ++ [gcur]
     else groups,
     [sentence])
  else if maxSentences ≤ gcur.length ∧ ¬ gcur.isEmpty then
    (if minChars ≤ (joinWith ' ' gcur).length then groups ++ [gcur] else groups, [sentence])
  else (groups, gcur ++ [sentence])

/-- Instrumented mirror of `create_fine_chunks` returning sentence groups. -/
def fineChunkGroups (text : Str) (minChars maxChars minSentences maxSentences : Nat) :
    List (List Str) :=
  if text.isEmpty then []
  else
    let sents := fineSentences text
    if sents.isEmpty then []
    else
      let st := sents.foldl (fineGroupStep minChars maxChars minSentences maxSentences) ([], [])
      if ¬ st.2.isEmpty ∧ minChars ≤ (joinWith ' ' st.2).length ∧ minSentences ≤ st.2.length then
        st.1 ++ [st.2]
      else st.1

/-- The invariant of every sentence group retained by the fine merger: the group
    is nonempty, made of stripped nonempty sentences, its joined text has at
    least `minChars` characters, and, whenever `minSentences ≤ maxSentences`,
    it holds at least `minSentences` sentences. -/
def FineGroupOK (minChars minSentences maxSentences : Nat) (g : List Str) : Prop :=
  ¬ g.isEmpty ∧ (∀ s ∈ g, goodSentence s) ∧ minChars ≤ (joinWith ' ' g).length ∧
    (minSentences ≤ maxSentences → minSentences ≤ g.length)

/-! ### Overlap Window Applier (`apply_overlap_sliding_window`, text_processing.py 291-324) -/

/-- `apply_overlap_sliding_window` (lines 291-324).  For `i > 0` the code computes
    `overlap_words = max(0, len(prev_words) - overlap_tokens)` and joins
    `prev_words[overlap_words:]` with spaces in front of chunk `i`. -/
def apply_overlap_sliding_window (chunks : List Str) (overlapTokens : Int) : List Str :=
  if chunks.isEmpty ∨ overlapTokens ≤ 0 then chunks
  else
    (List.range chunks.length).map fun i =>
      if i = 0 then chunks.getD 0 []
      else
        let prevWords := pyWords (chunks.getD (i - 1) [])
        let overlapStart := (max 0 ((prevWords.length : Int) - overlapTokens)).toNat
        joinWith ' ' (prevWords.drop overlapStart) ++ nl2 ++ chunks.getD i []

/-- The last `n` elements of a list (used to state claim C8). -/
def lastN (n : Nat) (l : List α) : List α := l.drop (l.length - n)

/-! ### Structural Segmenter (`is_section_header` / `split_into_sections`,
    text_processing.py 118-219) -/

/-- Python word characters (`\w`), ASCII fragment: alphanumerics and underscore. -/
def isWordChar (c : Char) : Bool := c.isAlphanum || c == '_'

/-- Python `str.lower()`, ASCII fragment. -/
def lowerStr (s : Str) : Str := s.map Char.toLower

/-- Python `str.isupper()`, ASCII fragment: at least one cased character and no
    lowercase character. -/
def pyIsUpper (s : Str) : Bool := s.any Char.isAlpha && s.all (fun c => ¬ c.isLower)

/-- Literal match of a word at the front of the text; returns the remainder on
    success. -/
def matchLit : Str → Str → Option Str
  | [], s => some s
  | _ :: _, [] => none
  | c :: cs, d :: ds => if c = d then matchLit cs ds else none

/-- The regex tail `(\s|$)`. -/
def wsOrEnd : Str → Bool
  | [] => true
  | c :: _ => isWsC c

/-- Matching of the word part of the numbered-header regex of
    `is_section_header` (line 140): the header words joined by `\W+`, then
    `(\s|$)`.  Header words start with word characters (they come from
    `header.lower().split()` over the alphabetic section vocabulary), so the
    greedy left-to-right scan is equivalent to the backtracking regex. -/
def matchHeaderWords : List Str → Str → Bool
  | [], s => wsOrEnd s
  | [w], s =>
    match matchLit w s with
    | some r => wsOrEnd r
    | none => false
  | w :: w2 :: ws, s =>
    match matchLit w s with
    | some r =>
      match r with
      | [] => false
      | c :: _ =>
        if isWordChar c then false
        else matchHeaderWords (w2 :: ws) (r.dropWhile (fun d => ¬ isWordChar d))
    | none => false

/-- The regex `r'^\s*\d+\W*' + r'\W+'.join(words) + r'(\s|$)'` of
    `is_section_header` (line 140), applied to the lowercased stripped line.
    The empty-word-list case needs the one point of genuine backtracking:
    `\W*(\s|$)` matches iff the maximal non-word run contains a whitespace
    character or extends to the end of the text. -/
def matchesNumberedHeader (headerWords : List Str) (s : Str) : Bool :=
  let afterWs := s.dropWhile isWsC
  let digits := afterWs.takeWhile Char.isDigit
  let rest := afterWs.dropWhile Char.isDigit
  if digits.isEmpty then false
  else
    match headerWords with
    | [] => (rest.takeWhile fun c => ¬ isWordChar c).any isWsC ∨
            (rest.dropWhile fun c => ¬ isWordChar c).isEmpty
    | w :: ws => matchHeaderWords (w :: ws) (rest.dropWhile fun c => ¬ isWordChar c)

/-- `is_section_header` (text_processing.py lines 118-148). -/
def is_section_header (line : Str) (sectionHeaders : List Str) : Bool :=
  let ts := strip line
  let tl := lowerStr ts
  if sectionHeaders.contains tl then true
  else if sectionHeaders.any (fun h => matchesNumberedHeader (pyWords (lowerStr h)) tl) then
    true
  else if pyIsUpper ts && decide ((pyWords ts).length ≤ 5) then true
  else false

/-- The line loop of `split_into_sections` (lines 194-213), written as a
    recursion over the remaining lines; `curSec` and `curCont` are the
    `current_section` and `current_content` variables. -/
def sectionsLoop (headers : List Str) : List Str → Str → List Str → List (Str × Str)
  | [], curSec, curCont =>
    if curCont.isEmpty then [] else [(curSec, joinWith '\n' curCont)]
  | line :: rest, curSec, curCont =>
    let l := strip line
    if l.isEmpty then sectionsLoop headers rest curSec curCont
    else if is_section_header l headers then
      (if curCont.isEmpty then [] else [(curSec, joinWith '\n' curCont)]) ++
        sectionsLoop headers rest l []
    else sectionsLoop headers rest curSec (curCont ++ [l])

/-- `split_into_sections` (text_processing.py lines 178-219). -/
def split_into_sections (text : Str) (headers : List Str) : List (Str × Str) :=
  let secs := sectionsLoop headers (splitOnChar '\n' text) "Unknown".data []
  if secs.isEmpty then [("Content".data, strip text)] else secs

/-- The stripped non-blank lines of the text that precede its first header line
    (used to state claim C10). -/
def preHeaderLines (headers : List Str) : List Str → List Str
  | [] => []
  | line :: rest =>
    let l := strip line
    if l.isEmpty then preHeaderLines headers rest
    else if is_section_header l headers then []
    else l :: preHeaderLines headers rest

/-! ### Dual Collection Store (`vector_store_service.py`) and Citation Matcher
    (`suggest_citation`, routes.py 199-257) -/

/-- The metadata fields of a stored chunk that the citation route reads;
    `none` models an absent dictionary key. -/
structure ChunkMetadata where
  title : Option Str
  authors : Option Str
  citationKey : Option Str
  bibtex : Option Str
deriving DecidableEq

/-- One raw hit returned by the backing ChromaDB index for a query: document,
    metadata and distance.  The index is an external dependency; spec section 4.7
    describes its output as at most `n_results` hits ordered by ascending
    distance, which the theorems below take as hypotheses where needed. -/
structure QueryHit where
  text : Str
  metadata : ChunkMetadata
  distance : ℚ
deriving DecidableEq

/-- One formatted search result (`search_collection`, vector_store_service.py
    lines 125-141). -/
structure SearchResult where
  text : Str
  metadata : ChunkMetadata
  distance : ℚ
  similarityScore : ℚ
  rank : Nat
  collection : Str
deriving DecidableEq

/-- The formatting loop of `search_collection` (lines 126-141):
    `similarity_score = 1.0 - float(distance)`, `rank = i + 1`. -/
def formatResults (collectionName : Str) (hits : List QueryHit) : List SearchResult :=
  hits.enum.map fun p =>
    { text := p.2.text, metadata := p.2.metadata, distance := p.2.distance,
      similarityScore := 1 - p.2.distance, rank := p.1 + 1, collection := collectionName }

/-- `search_collection` (lines 111-147) with the backing index abstracted as the
    function `query`, mapping the requested `n_results` to the returned hits. -/
def search_collection (query : Nat → List QueryHit) (k : Nat) (collectionName : Str) :
    List SearchResult :=
  formatResults collectionName (query k)

/-- Stable descending insertion by `similarity_score`. -/
def insertDescBySim (x : SearchResult) : List SearchResult → List SearchResult
  | [] => [x]
  | y :: ys =>
    if y.similarityScore ≤ x.similarityScore then x :: y :: ys
    else y :: insertDescBySim x ys

/-- `all_results.sort(key=lambda x: x["similarity_score"], reverse=True)`
    (vector_store_service.py line 157).  Python sort is a stable sort, and a
    stable sort is determined uniquely by the key order, so stable insertion
    sort is extensionally the same function. -/
def sortBySimDesc : List SearchResult → List SearchResult
  | [] => []
  | x :: xs => insertDescBySim x (sortBySimDesc xs)

/-- `search_both_collections` (vector_store_service.py lines 149-163). -/
def search_both_collections (fineQuery coarseQuery : Nat → List QueryHit)
    (kFine kCoarse : Nat) : List SearchResult :=
  sortBySimDesc (search_collection fineQuery kFine "fine".data ++
    search_collection coarseQuery kCoarse "coarse".data)

/-- Python `str.rfind(c)`: the greatest index holding `c`, and `-1` when absent. -/
def pyRfind (s : Str) (c : Char) : Int :=
  match s.reverse.findIdx? (fun d => d = c) with
  | some i => ((s.length - 1 - i : Nat) : Int)
  | none => -1

/-- The snippet truncation of `suggest_citation` (routes.py lines 226-236). -/
def truncateSnippet (matchText : Str) : Str :=
  if 300 < matchText.length then
    let truncated := matchText.take 300
    let lastSpace := pyRfind truncated ' '
    if 250 < lastSpace then truncated.take lastSpace.toNat ++ "...".data
    else truncated ++ "...".data
  else matchText

/-- The paper record built by `suggest_citation` (routes.py lines 239-245). -/
structure PaperInfo where
  title : Str
  authors : Str
  citationKey : Str
  bibtex : Str
  matchSnippet : Str
deriving DecidableEq

/-- The response of `suggest_citation` (`CitationSuggestionResponse`). -/
structure CitationSuggestion where
  matched : Bool
  score : ℚ
  paper : Option PaperInfo
deriving DecidableEq

/-- Python `max(results, key=lambda x: x["similarity_score"])`: the first
    result with the maximal score (`max` replaces the best only on strict
    increase). -/
def maxBySim (best : SearchResult) : List SearchResult → SearchResult
  | [] => best
  | r :: rs => maxBySim (if best.similarityScore < r.similarityScore then r else best) rs

/-- The similarity threshold `0.8` of `suggest_citation` (routes.py line 222). -/
def citationThreshold : ℚ := mkRat 4 5

/-- `suggest_citation` (routes.py lines 199-257): query the fine collection with
    `k=3`, take the result with the highest similarity score, compare against
    the `0.8` threshold. -/
def suggest_citation (fineQuery : Nat → List QueryHit) : CitationSuggestion :=
  match search_collection fineQuery 3 "fine".data with
  | [] => { matched := false, score := 0, paper := none }
  | r :: rs =>
    let best := maxBySim r rs
    if citationThreshold ≤ best.similarityScore then
      { matched := true, score := best.similarityScore,
        paper := some
          { title := best.metadata.title.getD "Unknown Title".data,
            authors := best.metadata.authors.getD "Unknown Authors".data,
            citationKey := best.metadata.citationKey.getD "unknown".data,
            bibtex := best.metadata.bibtex.getD [],
            matchSnippet := truncateSnippet best.text } }
    else { matched := false, score := best.similarityScore, paper := none }

/-- Concrete backend hit used by witness theorems: distance `0.15`,
    so `similarity_score = 0.85`. -/
def hit085 : QueryHit :=
  { text := "gamma".data,
    metadata := { title := some "T".data, authors := some "A".data,
                  citationKey := some "K".data, bibtex := some "B".data },
    distance := mkRat 3 20 }

/-- Concrete backend hit used by witness theorems: distance `0.35`,
    so `similarity_score = 0.65`. -/
def hit065 : QueryHit :=
  { text := "delta".data,
    metadata := { title := none, authors := none, citationKey := none, bibtex := none },
    distance := mkRat 7 20 }

/-! ## Theorems -/

theorem appendToLast_snoc (chunk : Str) (pre : List Str) (b : Str) :
    appendToLast chunk (pre ++ [b]) = pre ++ [b ++ nl2 ++ chunk] := by
  induction pre with
  | nil => rfl
  | cons a rest ih =>
    cases rest with
    | nil => rfl
    | cons x xs =>
      simp only [List.cons_append, List.append_eq, appendToLast] at ih ⊢
      rw [ih]

theorem foldl_postStep_absorb (tok : Str → Nat) (minT : Nat) (cs : List Str) :
    ∀ (pre : List Str) (b : Str),
      cs.foldl (minTokenPostStep tok minT) (pre ++ [b]) =
        pre ++ absorbSmall (fun c => tok c < minT) b cs := by
  induction cs with
  | nil => intro pre b; simp [absorbSmall]
  | cons c cs ih =>
    intro pre b
    simp only [List.foldl_cons]
    by_cases h : minT ≤ tok c
    · rw [show minTokenPostStep tok minT (pre ++ [b]) c = (pre ++ [b]) ++ [c] from by
        simp [minTokenPostStep, h]]
      rw [ih (pre ++ [b]) c]
      simp [absorbSmall, Nat.not_lt.mpr h]
    · rw [show minTokenPostStep tok minT (pre ++ [b]) c = pre ++ [b ++ nl2 ++ c] from by
        simp only [minTokenPostStep, if_neg h]
        rw [if_neg (by simp), appendToLast_snoc]]
      rw [ih pre (b ++ nl2 ++ c)]
      simp [absorbSmall, Nat.not_le.mp h]

theorem minTokenPostPass_eq_spec (tok : Str → Nat) (minT : Nat) (chunks : List Str) :
    minTokenPostPass tok minT chunks = specPostPass (fun c => tok c < minT) chunks := by
  induction chunks with
  | nil => rfl
  | cons c cs ih =>
    unfold minTokenPostPass at ih ⊢
    simp only [List.foldl_cons]
    by_cases h : minT ≤ tok c
    · rw [show minTokenPostStep tok minT [] c = [] ++ [c] from by simp [minTokenPostStep, h]]
      rw [foldl_postStep_absorb]
      simp [specPostPass, Nat.not_lt.mpr h]
    · rw [show minTokenPostStep tok minT [] c = [] from by simp [minTokenPostStep, h]]
      rw [ih]
      simp [specPostPass, Nat.not_le.mp h]

/-- Claim C1 (amended): in the post-pass of the Token-Budgeted Merger, every
    chunk whose token count is below `min_tokens` is merged into the
    immediately preceding accepted chunk; undersized chunks with no preceding
    accepted chunk are dropped from the output (not kept as-is). -/
theorem c1_postpass_absorbs_into_predecessor (tok : Str → Nat) (minTokens maxTokens : Nat)
    (paragraphs : List Str) (_hcfg : minTokens ≤ maxTokens) :
    merge_paragraphs_semantically tok minTokens maxTokens paragraphs =
      specPostPass (fun c => tok c < minTokens) (greedyMerge tok maxTokens paragraphs) := by
  unfold merge_paragraphs_semantically
  by_cases hp : paragraphs.isEmpty
  · rw [if_pos hp]
    have : paragraphs = [] := by simpa using hp
    subst this
    rfl
  · rw [if_neg hp]
    exact minTokenPostPass_eq_spec tok minTokens _

/-- Claim C1 witness: the amended statement applied at a concrete input. -/
theorem c1_witness :
    2 ≤ 5 ∧
      merge_paragraphs_semantically wordCount 2 5 ["a b".data, "c".data] =
        specPostPass (fun c => wordCount c < 2)
          (greedyMerge wordCount 5 ["a b".data, "c".data]) :=
  ⟨by decide, c1_postpass_absorbs_into_predecessor wordCount 2 5 _ (by decide)⟩

/-- Claim C1 counterexample: with `min_tokens = 2 ≤ max_tokens = 5` and the
    word-count tokenizer, the single undersized paragraph is discarded by the
    post-pass, not kept as-is as the claim states. -/
theorem c1_counterexample :
    2 ≤ 5 ∧ wordCount "hi".data < 2 ∧
      merge_paragraphs_semantically wordCount 2 5 ["hi".data] = [] := by decide

theorem appendToLast_forall (P : Str → Prop) (hP : ∀ a b, P a → P (a ++ nl2 ++ b)) (c : Str) :
    ∀ l, (∀ x ∈ l, P x) → ∀ x ∈ appendToLast c l, P x := by
  intro l
  induction l with
  | nil => simp [appendToLast]
  | cons a rest ih =>
    intro hl x hx
    cases rest with
    | nil =>
      simp only [appendToLast, List.mem_singleton] at hx
      subst hx
      exact hP a c (hl a (by simp))
    | cons y ys =>
      simp only [appendToLast, List.mem_cons] at hx
      rcases hx with rfl | hx
      · exact hl x (by simp)
      · exact ih (fun z hz => hl z (List.mem_cons_of_mem _ hz)) x hx

theorem foldl_postStep_min (tok : Str → Nat) (minT : Nat)
    (hmono : ∀ a b, tok a ≤ tok (a ++ nl2 ++ b)) (cs : List Str) :
    ∀ acc, (∀ x ∈ acc, minT ≤ tok x) →
      ∀ x ∈ cs.foldl (minTokenPostStep tok minT) acc, minT ≤ tok x := by
  induction cs with
  | nil => intro acc h; simpa using h
  | cons c cs ih =>
    intro acc hacc
    simp only [List.foldl_cons]
    apply ih
    intro x hx
    unfold minTokenPostStep at hx
    by_cases h : minT ≤ tok c
    · rw [if_pos h] at hx
      rcases List.mem_append.mp hx with h1 | h1
      · exact hacc x h1
      · rw [List.mem_singleton.mp h1]
        exact h
    · rw [if_neg h] at hx
      by_cases he : acc.isEmpty
      · rw [if_pos he] at hx
        exact hacc x hx
      · rw [if_neg he] at hx
        exact appendToLast_forall (fun a => minT ≤ tok a)
          (fun a b ha => le_trans ha (hmono a b)) c acc hacc x hx

/-- Claim C2 (amended): for any token counter that is monotone under the
    `"\n\n"`-concatenation the post-pass performs, every chunk retained by the
    Token-Budgeted Merger has at least `min_tokens` tokens.  The upper bound
    `max_tokens` does not hold in general (see the counterexample): a single
    paragraph whose own token count exceeds `max_tokens` is emitted as an
    oversized chunk at any position. -/
theorem c2_min_token_bound (tok : Str → Nat) (minTokens maxTokens : Nat)
    (paragraphs : List Str) (_hcfg : minTokens ≤ maxTokens)
    (hmono : ∀ a b, tok a ≤ tok (a ++ nl2 ++ b)) :
    ∀ c ∈ merge_paragraphs_semantically tok minTokens maxTokens paragraphs,
      minTokens ≤ tok c := by
  intro c hc
  unfold merge_paragraphs_semantically at hc
  by_cases hp : paragraphs.isEmpty
  · rw [if_pos hp] at hc
    simp at hc
  · rw [if_neg hp] at hc
    exact foldl_postStep_min tok minTokens hmono _ [] (by simp) c hc

/-- Claim C2 witness: the amended statement applied at a concrete input with
    the character-count tokenizer (monotone under concatenation). -/
theorem c2_witness :
    1 ≤ 5 ∧
      ∀ c ∈ merge_paragraphs_semantically List.length 1 5 ["ab".data], 1 ≤ c.length :=
  ⟨by decide, c2_min_token_bound List.length 1 5 ["ab".data] (by decide)
    (fun a b => by simp [nl2])⟩

/-- Claim C2 counterexample: with `min_tokens = 1 ≤ max_tokens = 5` and the
    word-count tokenizer, the second (not first) retained chunk holds 10 tokens,
    outside `[1, 5]`. -/
theorem c2_counterexample :
    1 ≤ 5 ∧
      merge_paragraphs_semantically wordCount 1 5
          ["a b c".data, "a b c d e f g h i j".data] =
        ["a b c".data, "a b c d e f g h i j".data] ∧
      5 < wordCount "a b c d e f g h i j".data := by decide

/-- Claim C5 (amended): for a best-match text longer than 300 characters, the
    snippet is a prefix of the text of at most 300 characters followed by the
    three-character ellipsis marker, hence at most 303 characters in total
    (not 300 as claimed); the word-boundary break fires only when the last
    space of the first 300 characters lies strictly after position 250. -/
theorem c5_snippet_truncation (s : Str) (h : 300 < s.length) :
    (truncateSnippet s).length ≤ 303 ∧
      ∃ n ≤ 300, truncateSnippet s = s.take n ++ "...".data := by
  unfold truncateSnippet
  rw [if_pos h]
  have hlen : (s.take 300).length = 300 := by
    rw [List.length_take]
    omega
  by_cases hsp : 250 < pyRfind (s.take 300) ' '
  · rw [if_pos hsp]
    have hb : (pyRfind (s.take 300) ' ').toNat ≤ 299 := by
      unfold pyRfind at hsp ⊢
      cases hf : (s.take 300).reverse.findIdx? (fun d => d = ' ') with
      | none => simp [hf] at hsp
      | some i =>
        dsimp only at hsp ⊢
        omega
    have htake : (s.take 300).take (pyRfind (s.take 300) ' ').toNat =
        s.take (pyRfind (s.take 300) ' ').toNat := by
      rw [List.take_take]
      congr 1
      omega
    rw [htake]
    constructor
    · rw [List.length_append, List.length_take]
      simp
      omega
    · exact ⟨(pyRfind (s.take 300) ' ').toNat, by omega, rfl⟩
  · rw [if_neg hsp]
    constructor
    · rw [List.length_append, hlen]
      simp
    · exact ⟨300, le_refl 300, rfl⟩

set_option maxRecDepth 100000 in
/-- Claim C5 witness: the amended statement applied at a 301-character text. -/
theorem c5_witness :
    300 < (List.replicate 301 'a').length ∧
      ((truncateSnippet (List.replicate 301 'a')).length ≤ 303 ∧
        ∃ n ≤ 300, truncateSnippet (List.replicate 301 'a') =
          (List.replicate 301 'a').take n ++ "...".data) :=
  ⟨by decide, c5_snippet_truncation (List.replicate 301 'a') (by decide)⟩

set_option maxRecDepth 100000 in
/-- Claim C5 counterexample: a 301-character spaceless text yields a
    303-character snippet, above the claimed 300-character bound; and with the
    last space exactly at position 250 the code hard-truncates instead of
    breaking at the space as the claimed `position >= 250` rule would. -/
theorem c5_counterexample :
    (truncateSnippet (List.replicate 301 'a')).length = 303 ∧
      pyRfind ((List.replicate 250 'b' ++ ' ' :: List.replicate 60 'c').take 300) ' ' = 250 ∧
      truncateSnippet (List.replicate 250 'b' ++ ' ' :: List.replicate 60 'c') =
        (List.replicate 250 'b' ++ ' ' :: List.replicate 60 'c').take 300 ++ "...".data := by
  decide

/-- Claim C7: the concrete two-section scenario of the Structural Segmenter;
    the labels are the verbatim lines `Abstract` and `1. Introduction`. -/
theorem c7_concrete_sections :
    split_into_sections
        "Abstract\nThis is the abstract.\n\n1. Introduction\nBackground text here.".data
        ["abstract".data, "introduction".data] =
      [("Abstract".data, "This is the abstract.".data),
       ("1. Introduction".data, "Background text here.".data)] := by decide

theorem getD_range_map {α : Type} (f : Nat → α) (d : α) (n i : Nat) (h : i < n) :
    ((List.range n).map f).getD i d = f i := by
  simp [List.getD, List.getElem?_map, List.getElem?_range, h]

/-- Claim C8: the Overlap Window Applier is the identity for
    `overlap_tokens ≤ 0`; otherwise it preserves the chunk count, keeps chunk 0
    unchanged, and prefixes every later chunk `i` with the trailing
    `min(word count, overlap_tokens)` whitespace-split words of the original
    chunk `i-1`, separated by a blank line — single-hop, never through a
    previously overlapped chunk. -/
theorem c8_overlap_window (chunks : List Str) (ov : Int) :
    (ov ≤ 0 → apply_overlap_sliding_window chunks ov = chunks) ∧
    (0 < ov →
      (apply_overlap_sliding_window chunks ov).length = chunks.length ∧
      (apply_overlap_sliding_window chunks ov).getD 0 [] = chunks.getD 0 [] ∧
      ∀ i, 0 < i → i < chunks.length →
        (apply_overlap_sliding_window chunks ov).getD i [] =
          joinWith ' ' (lastN (min (pyWords (chunks.getD (i - 1) [])).length ov.toNat)
              (pyWords (chunks.getD (i - 1) []))) ++ nl2 ++ chunks.getD i []) := by
  constructor
  · intro h
    unfold apply_overlap_sliding_window
    rw [if_pos (Or.inr h)]
  · intro hov
    have hnle : ¬ (ov ≤ 0) := not_le.mpr hov
    by_cases hE : chunks.isEmpty
    · have he : chunks = [] := by simpa using hE
      subst he
      unfold apply_overlap_sliding_window
      simp
    · unfold apply_overlap_sliding_window
      rw [if_neg (by simp [hE, hnle])]
      refine ⟨by simp, ?_, ?_⟩
      · have h0 : 0 < chunks.length := by
          cases chunks with
          | nil => simp at hE
          | cons a l => simp
        rw [getD_range_map _ _ _ _ h0]
        simp
      · intro i hi hilen
        rw [getD_range_map _ _ _ _ hilen]
        rw [if_neg (Nat.pos_iff_ne_zero.mp hi)]
        have harith : ∀ L : Nat, (max 0 ((L : Int) - ov)).toNat = L - min L ov.toNat := by
          intro L
          omega
        simp only [lastN, harith]

/-- Claim C8 witness: the statement applied at a concrete chunk list with
    `overlap_tokens = 2`. -/
theorem c8_witness :
    (0 : Int) < 2 ∧
      ((apply_overlap_sliding_window ["a b c".data, "d".data] 2).length =
          (["a b c".data, "d".data] : List Str).length ∧
        (apply_overlap_sliding_window ["a b c".data, "d".data] 2).getD 0 [] =
          (["a b c".data, "d".data] : List Str).getD 0 [] ∧
        ∀ i, 0 < i → i < (["a b c".data, "d".data] : List Str).length →
          (apply_overlap_sliding_window ["a b c".data, "d".data] 2).getD i [] =
            joinWith ' '
                (lastN
                  (min (pyWords ((["a b c".data, "d".data] : List Str).getD (i - 1) [])).length
                    (2 : Int).toNat)
                  (pyWords ((["a b c".data, "d".data] : List Str).getD (i - 1) []))) ++
              nl2 ++ (["a b c".data, "d".data] : List Str).getD i []) :=
  ⟨by decide, (c8_overlap_window ["a b c".data, "d".data] 2).2 (by decide)⟩

theorem length_insertDescBySim (x : SearchResult) (l : List SearchResult) :
    (insertDescBySim x l).length = l.length + 1 := by
  induction l with
  | nil => rfl
  | cons y ys ih =>
    unfold insertDescBySim
    by_cases h : y.similarityScore ≤ x.similarityScore
    · simp [h]
    · simp [h, ih]

theorem length_sortBySimDesc (l : List SearchResult) :
    (sortBySimDesc l).length = l.length := by
  induction l with
  | nil => rfl
  | cons x xs ih => simp [sortBySimDesc, length_insertDescBySim, ih]

theorem mem_insertDescBySim {z x : SearchResult} {l : List SearchResult} :
    z ∈ insertDescBySim x l ↔ z = x ∨ z ∈ l := by
  induction l with
  | nil => simp [insertDescBySim]
  | cons y ys ih =>
    unfold insertDescBySim
    by_cases h : y.similarityScore ≤ x.similarityScore
    · simp [h, List.mem_cons]
    · simp [h, List.mem_cons, ih]
      tauto

theorem mem_sortBySimDesc {z : SearchResult} {l : List SearchResult} :
    z ∈ sortBySimDesc l ↔ z ∈ l := by
  induction l with
  | nil => simp [sortBySimDesc]
  | cons x xs ih => simp [sortBySimDesc, mem_insertDescBySim, ih]

theorem sorted_insertDescBySim (x : SearchResult) (l : List SearchResult)
    (h : l.Sorted (fun a b => b.similarityScore ≤ a.similarityScore)) :
    (insertDescBySim x l).Sorted (fun a b => b.similarityScore ≤ a.similarityScore) := by
  induction l with
  | nil => simp [insertDescBySim]
  | cons y ys ih =>
    rw [List.sorted_cons] at h
    unfold insertDescBySim
    by_cases hc : y.similarityScore ≤ x.similarityScore
    · rw [if_pos hc, List.sorted_cons]
      constructor
      · intro b hb
        rcases List.mem_cons.mp hb with rfl | hb
        · exact hc
        · exact le_trans (h.1 b hb) hc
      · exact List.sorted_cons.mpr h
    · rw [if_neg hc, List.sorted_cons]
      constructor
      · intro b hb
        rcases mem_insertDescBySim.mp hb with rfl | hb
        · exact le_of_lt (not_le.mp hc)
        · exact h.1 b hb
      · exact ih h.2

theorem sorted_sortBySimDesc (l : List SearchResult) :
    (sortBySimDesc l).Sorted (fun a b => b.similarityScore ≤ a.similarityScore) := by
  induction l with
  | nil => simp [sortBySimDesc]
  | cons x xs ih => exact sorted_insertDescBySim x _ ih

theorem length_formatResults (name : Str) (hits : List QueryHit) :
    (formatResults name hits).length = hits.length := by
  simp [formatResults]

theorem mem_formatResults {name : Str} {hits : List QueryHit} {r : SearchResult}
    (h : r ∈ formatResults name hits) :
    ∃ hit ∈ hits, r.similarityScore = 1 - hit.distance := by
  unfold formatResults at h
  rcases List.mem_map.mp h with ⟨p, hp, rfl⟩
  exact ⟨p.2, List.getElem?_mem (List.mem_enum_iff_getElem?.mp hp), rfl⟩

/-- Claim C9: `search_both_collections` returns at most `k_fine + k_coarse`
    results (given that the backing index honours `n_results`), its similarity
    scores are non-increasing in result order, and every returned score is
    `1 - distance` of some hit of one of the two collection queries. -/
theorem c9_search_both (fineQuery coarseQuery : Nat → List QueryHit) (kFine kCoarse : Nat)
    (hf : (fineQuery kFine).length ≤ kFine) (hc : (coarseQuery kCoarse).length ≤ kCoarse) :
    (search_both_collections fineQuery coarseQuery kFine kCoarse).length ≤ kFine + kCoarse ∧
    (search_both_collections fineQuery coarseQuery kFine kCoarse).Sorted
      (fun a b => b.similarityScore ≤ a.similarityScore) ∧
    ∀ r ∈ search_both_collections fineQuery coarseQuery kFine kCoarse,
      ∃ hit, (hit ∈ fineQuery kFine ∨ hit ∈ coarseQuery kCoarse) ∧
        r.similarityScore = 1 - hit.distance := by
  refine ⟨?_, sorted_sortBySimDesc _, ?_⟩
  · unfold search_both_collections search_collection
    rw [length_sortBySimDesc, List.length_append, length_formatResults, length_formatResults]
    omega
  · intro r hr
    unfold search_both_collections at hr
    rw [mem_sortBySimDesc] at hr
    rcases List.mem_append.mp hr with h | h
    · rcases mem_formatResults h with ⟨hit, hh, he⟩
      exact ⟨hit, Or.inl hh, he⟩
    · rcases mem_formatResults h with ⟨hit, hh, he⟩
      exact ⟨hit, Or.inr hh, he⟩

/-- Claim C9 witness: the statement applied to one-hit backends with
    `k_fine = k_coarse = 1`. -/
theorem c9_witness :
    ((fun _ => [hit085]) 1 : List QueryHit).length ≤ 1 ∧
      ((fun _ => [hit065]) 1 : List QueryHit).length ≤ 1 ∧
      ((search_both_collections (fun _ => [hit085]) (fun _ => [hit065]) 1 1).length ≤ 1 + 1 ∧
        (search_both_collections (fun _ => [hit085]) (fun _ => [hit065]) 1 1).Sorted
          (fun a b => b.similarityScore ≤ a.similarityScore) ∧
        ∀ r ∈ search_both_collections (fun _ => [hit085]) (fun _ => [hit065]) 1 1,
          ∃ hit, (hit ∈ ((fun _ => [hit085]) 1 : List QueryHit) ∨
              hit ∈ ((fun _ => [hit065]) 1 : List QueryHit)) ∧
            r.similarityScore = 1 - hit.distance) :=
  ⟨by decide, by decide,
    c9_search_both (fun _ => [hit085]) (fun _ => [hit065]) 1 1 (by decide) (by decide)⟩

theorem maxBySim_mem (b : SearchResult) (rs : List SearchResult) :
    maxBySim b rs ∈ b :: rs := by
  induction rs generalizing b with
  | nil => simp [maxBySim]
  | cons r rs ih =>
    unfold maxBySim
    have h := ih (if b.similarityScore < r.similarityScore then r else b)
    rcases List.mem_cons.mp h with h1 | h1
    · rw [h1]
      by_cases hc : b.similarityScore < r.similarityScore
      · simp [hc]
      · simp [hc]
    · exact List.mem_cons_of_mem _ (List.mem_cons_of_mem _ h1)

theorem maxBySim_ge (b : SearchResult) (rs : List SearchResult) :
    ∀ x ∈ b :: rs, x.similarityScore ≤ (maxBySim b rs).similarityScore := by
  induction rs generalizing b with
  | nil =>
    intro x hx
    rw [List.mem_singleton.mp hx]
    exact le_refl _
  | cons r rs ih =>
    intro x hx
    unfold maxBySim
    have hb : b.similarityScore ≤
        (if b.similarityScore < r.similarityScore then r else b).similarityScore := by
      by_cases hc : b.similarityScore < r.similarityScore
      · rw [if_pos hc]; exact le_of_lt hc
      · rw [if_neg hc]
    have hr : r.similarityScore ≤
        (if b.similarityScore < r.similarityScore then r else b).similarityScore := by
      by_cases hc : b.similarityScore < r.similarityScore
      · rw [if_pos hc]
      · rw [if_neg hc]; exact not_lt.mp hc
    have hmax := ih (if b.similarityScore < r.similarityScore then r else b)
    rcases List.mem_cons.mp hx with rfl | hx2
    · exact le_trans hb (hmax _ (List.mem_cons_self _ _))
    · rcases List.mem_cons.mp hx2 with rfl | hx3
      · exact le_trans hr (hmax _ (List.mem_cons_self _ _))
      · exact hmax x (List.mem_cons_of_mem _ hx3)

/-- Claim C6: `suggest_citation` queries the fine collection with `k = 3`; with
    no results it answers `match=false, score=0`; otherwise it answers with the
    maximal similarity score of the results, `match=true` exactly when that
    score reaches the `0.8` threshold, and `paper=None` exactly when it does
    not. -/
theorem c6_suggest_citation (fineQuery : Nat → List QueryHit) :
    (fineQuery 3 = [] →
      suggest_citation fineQuery = { matched := false, score := 0, paper := none }) ∧
    (fineQuery 3 ≠ [] →
      ∃ best ∈ search_collection fineQuery 3 "fine".data,
        (∀ r ∈ search_collection fineQuery 3 "fine".data,
          r.similarityScore ≤ best.similarityScore) ∧
        (suggest_citation fineQuery).score = best.similarityScore ∧
        ((suggest_citation fineQuery).matched = true ↔
          citationThreshold ≤ best.similarityScore) ∧
        ((suggest_citation fineQuery).paper = none ↔
          best.similarityScore < citationThreshold)) := by
  constructor
  · intro h
    unfold suggest_citation
    rw [show search_collection fineQuery 3 "fine".data = [] from by
      simp [search_collection, formatResults, h]]
  · intro h
    have hres : search_collection fineQuery 3 "fine".data ≠ [] := by
      simp only [search_collection, formatResults, ne_eq, List.map_eq_nil_iff,
        List.enum_eq_nil]
      exact h
    rcases List.exists_cons_of_ne_nil hres with ⟨r, rs, heq⟩
    have hsugg : suggest_citation fineQuery =
        (if citationThreshold ≤ (maxBySim r rs).similarityScore then
          { matched := true, score := (maxBySim r rs).similarityScore,
            paper := some
              { title := (maxBySim r rs).metadata.title.getD "Unknown Title".data,
                authors := (maxBySim r rs).metadata.authors.getD "Unknown Authors".data,
                citationKey := (maxBySim r rs).metadata.citationKey.getD "unknown".data,
                bibtex := (maxBySim r rs).metadata.bibtex.getD [],
                matchSnippet := truncateSnippet (maxBySim r rs).text } }
        else { matched := false, score := (maxBySim r rs).similarityScore, paper := none }) := by
      unfold suggest_citation
      rw [heq]
    refine ⟨maxBySim r rs, ?_, ?_, ?_, ?_, ?_⟩
    · rw [heq]
      exact maxBySim_mem r rs
    · intro x hx
      rw [heq] at hx
      exact maxBySim_ge r rs x hx
    · rw [hsugg]
      by_cases hthr : citationThreshold ≤ (maxBySim r rs).similarityScore
      · rw [if_pos hthr]
      · rw [if_neg hthr]
    · rw [hsugg]
      by_cases hthr : citationThreshold ≤ (maxBySim r rs).similarityScore
      · rw [if_pos hthr]
        simp [hthr]
      · rw [if_neg hthr]
        simp [hthr]
    · rw [hsugg]
      by_cases hthr : citationThreshold ≤ (maxBySim r rs).similarityScore
      · rw [if_pos hthr]
        simp [not_lt.mpr hthr]
      · rw [if_neg hthr]
        simp [not_le.mp hthr]

/-- Claim C6 witness: the statement applied to a one-hit backend whose hit has
    distance `0.15` and therefore similarity score `0.85`. -/
theorem c6_witness :
    ((fun _ => [hit085]) 3 : List QueryHit) ≠ [] ∧
      (∃ best ∈ search_collection (fun _ => [hit085]) 3 "fine".data,
        (∀ r ∈ search_collection (fun _ => [hit085]) 3 "fine".data,
          r.similarityScore ≤ best.similarityScore) ∧
        (suggest_citation (fun _ => [hit085])).score = best.similarityScore ∧
        ((suggest_citation (fun _ => [hit085])).matched = true ↔
          citationThreshold ≤ best.similarityScore) ∧
        ((suggest_citation (fun _ => [hit085])).paper = none ↔
          best.similarityScore < citationThreshold)) :=
  ⟨by decide, (c6_suggest_citation (fun _ => [hit085])).2 (by decide)⟩

theorem sectionsLoop_pre (headers : List Str) (ls : List Str) :
    ∀ (sec : Str) (acc : List Str),
      (¬ acc.isEmpty ∨ ¬ (preHeaderLines headers ls).isEmpty) →
      ∃ rest, sectionsLoop headers ls sec acc =
        (sec, joinWith '\n' (acc ++ preHeaderLines headers ls)) :: rest := by
  induction ls with
  | nil =>
    intro sec acc h
    have hacc : ¬ acc.isEmpty := by
      rcases h with h | h
      · exact h
      · simp [preHeaderLines] at h
    refine ⟨[], ?_⟩
    simp [sectionsLoop, preHeaderLines, hacc]
  | cons line rest ih =>
    intro sec acc h
    by_cases he : (strip line).isEmpty
    · have hloop : sectionsLoop headers (line :: rest) sec acc =
          sectionsLoop headers rest sec acc := by
        simp only [sectionsLoop]
        rw [if_pos he]
      have hpre : preHeaderLines headers (line :: rest) = preHeaderLines headers rest := by
        simp only [preHeaderLines]
        rw [if_pos he]
      rw [hloop, hpre]
      rw [hpre] at h
      exact ih sec acc h
    · by_cases hh : is_section_header (strip line) headers
      · have hpre : preHeaderLines headers (line :: rest) = [] := by
          simp only [preHeaderLines]
          rw [if_neg he, if_pos hh]
        rw [hpre]
        have hacc : ¬ acc.isEmpty := by
          rcases h with h1 | h1
          · exact h1
          · rw [hpre] at h1
            simp at h1
        have hloop : sectionsLoop headers (line :: rest) sec acc =
            [(sec, joinWith '\n' acc)] ++ sectionsLoop headers rest (strip line) [] := by
          simp only [sectionsLoop]
          rw [if_neg he, if_pos hh, if_neg hacc]
        rw [hloop]
        exact ⟨sectionsLoop headers rest (strip line) [], by simp⟩
      · have hpre : preHeaderLines headers (line :: rest) =
            strip line :: preHeaderLines headers rest := by
          simp only [preHeaderLines]
          rw [if_neg he, if_neg hh]
        have hloop : sectionsLoop headers (line :: rest) sec acc =
            sectionsLoop headers rest sec (acc ++ [strip line]) := by
          simp only [sectionsLoop]
          rw [if_neg he, if_neg hh]
        rw [hloop, hpre]
        rcases ih sec (acc ++ [strip line]) (Or.inl (by simp)) with ⟨r2, hr2⟩
        refine ⟨r2, ?_⟩
        rw [hr2]
        simp

/-- Claim C10: when at least one non-blank non-header line precedes the first
    header line, the Structural Segmenter emits exactly those stripped lines as
    the first section, labeled `Unknown` (neither discarded nor labeled
    `Content`). -/
theorem c10_unknown_first_section (text : Str) (headers : List Str)
    (h : ¬ (preHeaderLines headers (splitOnChar '\n' text)).isEmpty) :
    ∃ rest, split_into_sections text headers =
      ("Unknown".data,
        joinWith '\n' (preHeaderLines headers (splitOnChar '\n' text))) :: rest := by
  rcases sectionsLoop_pre headers (splitOnChar '\n' text) "Unknown".data [] (Or.inr h)
    with ⟨rest, hr⟩
  refine ⟨rest, ?_⟩
  unfold split_into_sections
  rw [hr]
  simp

/-- Claim C10 witness: the statement applied at a concrete text with two
    content lines before the first header. -/
theorem c10_witness :
    ¬ (preHeaderLines ["abstract".data]
        (splitOnChar '\n' "hello world\nsecond line\nAbstract\nbody".data)).isEmpty ∧
      ∃ rest,
        split_into_sections "hello world\nsecond line\nAbstract\nbody".data
            ["abstract".data] =
          ("Unknown".data,
            joinWith '\n' (preHeaderLines ["abstract".data]
              (splitOnChar '\n' "hello world\nsecond line\nAbstract\nbody".data))) :: rest :=
  ⟨by decide, c10_unknown_first_section _ _ (by decide)⟩

theorem head_dropWhile_not (p : Char → Bool) (l : Str) :
    ∀ c, (l.dropWhile p).head? = some c → p c = false := by
  induction l with
  | nil => simp
  | cons a l ih =>
    intro c hc
    rw [List.dropWhile_cons] at hc
    by_cases h : p a
    · rw [if_pos h] at hc
      exact ih c hc
    · rw [if_neg h] at hc
      simp only [List.head?_cons, Option.some.injEq] at hc
      rw [← hc]
      exact Bool.not_eq_true _ ▸ (by simpa using h)

theorem getLast_dropWhile (p : Char → Bool) (l : Str) (h : ¬ (l.dropWhile p).isEmpty) :
    (l.dropWhile p).getLast? = l.getLast? := by
  induction l with
  | nil => simp at h
  | cons a l ih =>
    rw [List.dropWhile_cons]
    by_cases hp : p a
    · rw [List.dropWhile_cons, if_pos hp] at h
      rw [if_pos hp, ih h]
      have hl : l ≠ [] := by
        intro e
        subst e
        simp at h
      cases l with
      | nil => exact absurd rfl hl
      | cons b bs => rw [List.getLast?_cons_cons]
    · rw [if_neg hp]

theorem trimmed_strip (s : Str) : trimmedStr (strip s) := by
  constructor
  · intro c hc
    unfold strip at hc
    rw [List.head?_reverse] at hc
    by_cases he : ((s.dropWhile isWsC).reverse.dropWhile isWsC).isEmpty
    · rw [List.isEmpty_iff] at he
      rw [he] at hc
      simp at hc
    · rw [getLast_dropWhile _ _ he] at hc
      rw [List.getLast?_reverse] at hc
      exact head_dropWhile_not isWsC s c hc
  · intro c hc
    unfold strip at hc
    rw [List.getLast?_reverse] at hc
    exact head_dropWhile_not isWsC _ c hc

theorem strip_eq_self_of_trimmed (s : Str) (h : trimmedStr s) : strip s = s := by
  unfold strip
  have h1 : s.dropWhile isWsC = s := by
    cases s with
    | nil => rfl
    | cons a l =>
      rw [List.dropWhile_cons, if_neg ?_]
      have := h.1 a (by simp)
      simp [this]
  rw [h1]
  have h2 : s.reverse.dropWhile isWsC = s.reverse := by
    cases hr : s.reverse with
    | nil => rfl
    | cons a l =>
      rw [List.dropWhile_cons, if_neg ?_]
      have ha : s.getLast? = some a := by
        rw [← List.head?_reverse, hr]
        rfl
      have := h.2 a ha
      simp [this]
  rw [h2, List.reverse_reverse]

theorem trimmed_append (s t : Str) (c : Char) (hs : ¬ s.isEmpty) (ht : ¬ t.isEmpty)
    (h1 : trimmedStr s) (h2 : trimmedStr t) : trimmedStr (s ++ c :: t) := by
  constructor
  · intro d hd
    cases s with
    | nil => simp at hs
    | cons a l =>
      simp only [List.cons_append, List.head?_cons, Option.some.injEq] at hd
      rw [← hd]
      exact h1.1 a (by simp)
  · intro d hd
    rw [List.getLast?_append] at hd
    cases t with
    | nil => simp at ht
    | cons b m =>
      rw [List.getLast?_cons_cons] at hd
      cases hlast : (b :: m).getLast? with
      | none =>
        rw [List.getLast?_eq_none_iff] at hlast
        simp at hlast
      | some y =>
        rw [hlast] at hd
        simp only [Option.or_some, Option.some.injEq] at hd
        rw [← hd]
        exact h2.2 y hlast

theorem joinWith_snoc (c : Char) (g : List Str) (x : Str) :
    joinWith c (g ++ [x]) = if g.isEmpty then x else joinWith c g ++ c :: x := by
  induction g with
  | nil => rfl
  | cons w ws ih =>
    cases ws with
    | nil => rfl
    | cons w2 ws2 =>
      simp only [List.cons_append, List.append_eq, joinWith, List.isEmpty_cons] at ih ⊢
      rw [ih]
      simp

theorem joinWith_isEmpty (c : Char) (g : List Str) (hg : ∀ s ∈ g, ¬ s.isEmpty) :
    (joinWith c g).isEmpty = g.isEmpty := by
  cases g with
  | nil => rfl
  | cons w ws =>
    cases ws with
    | nil =>
      simp only [joinWith, List.isEmpty_cons]
      simpa using hg w (by simp)
    | cons w2 ws2 =>
      simp only [joinWith, List.isEmpty_cons]
      cases w with
      | nil =>
        have := hg [] (by simp)
        simp at this
      | cons a l => simp

theorem joinWith_trimmed (g : List Str) (hg : ∀ s ∈ g, goodSentence s) :
    trimmedStr (joinWith ' ' g) := by
  induction g with
  | nil =>
    constructor
    · intro c hc
      simp [joinWith] at hc
    · intro c hc
      simp [joinWith] at hc
  | cons w ws ih =>
    cases ws with
    | nil => exact (hg w (by simp)).2
    | cons w2 ws2 =>
      have hw := hg w (by simp)
      have hrest : ∀ s ∈ w2 :: ws2, goodSentence s := fun s hs => hg s (by simp [hs])
      have hjne : ¬ (joinWith ' ' (w2 :: ws2)).isEmpty := by
        rw [joinWith_isEmpty _ _ (fun s hs => (hrest s hs).1)]
        simp
      exact trimmed_append w _ ' ' hw.1 hjne hw.2 (ih hrest)

theorem fineSentences_good (text : Str) : ∀ s ∈ fineSentences text, goodSentence s := by
  intro s hs
  unfold fineSentences at hs
  rcases List.mem_filter.mp hs with ⟨hmem, hne⟩
  rcases List.mem_map.mp hmem with ⟨t, _, rfl⟩
  exact ⟨by simpa using hne, trimmed_strip t⟩

theorem fineStep_rel (minC maxC minS maxS : Nat) (groups : List (List Str)) (gcur : List Str)
    (s : Str) (hs : goodSentence s) (hg : ∀ x ∈ gcur, goodSentence x)
    (hG : ∀ g ∈ groups, FineGroupOK minC minS maxS g) :
    fineStep minC maxC minS maxS
        (groups.map (fun g => strip (joinWith ' ' g)), joinWith ' ' gcur, gcur.length) s =
      ((fineGroupStep minC maxC minS maxS (groups, gcur) s).1.map
          (fun g => strip (joinWith ' ' g)),
        joinWith ' ' (fineGroupStep minC maxC minS maxS (groups, gcur) s).2,
        (fineGroupStep minC maxC minS maxS (groups, gcur) s).2.length) ∧
    (∀ x ∈ (fineGroupStep minC maxC minS maxS (groups, gcur) s).2, goodSentence x) ∧
    (∀ g ∈ (fineGroupStep minC maxC minS maxS (groups, gcur) s).1,
      FineGroupOK minC minS maxS g) := by
  have hne : (joinWith ' ' gcur).isEmpty = gcur.isEmpty :=
    joinWith_isEmpty ' ' gcur (fun x hx => (hg x hx).1)
  have hpot : (if gcur.isEmpty then s else joinWith ' ' gcur ++ ' ' :: s) =
      joinWith ' ' (gcur ++ [s]) := by
    rw [joinWith_snoc]
  simp only [fineStep, fineGroupStep, hne, hpot]
  by_cases h1 : maxC < (joinWith ' ' (gcur ++ [s])).length ∧ ¬ gcur.isEmpty
  · rw [if_pos h1, if_pos h1]
    by_cases h2 : minC ≤ (joinWith ' ' gcur).length ∧ minS ≤ gcur.length
    · rw [if_pos h2, if_pos h2]
      refine ⟨by simp [joinWith], ?_, ?_⟩
      · intro x hx
        rw [List.mem_singleton.mp hx]
        exact hs
      · intro g hgm
        rcases List.mem_append.mp hgm with hgm | hgm
        · exact hG g hgm
        · rw [List.mem_singleton.mp hgm]
          exact ⟨h1.2, hg, h2.1, fun _ => h2.2⟩
    · rw [if_neg h2, if_neg h2]
      refine ⟨by simp [joinWith], ?_, hG⟩
      intro x hx
      rw [List.mem_singleton.mp hx]
      exact hs
  · rw [if_neg h1, if_neg h1]
    by_cases h3 : maxS ≤ gcur.length ∧ ¬ gcur.isEmpty
    · rw [if_pos h3, if_pos h3]
      by_cases h4 : minC ≤ (joinWith ' ' gcur).length
      · rw [if_pos h4, if_pos h4]
        refine ⟨by simp [joinWith], ?_, ?_⟩
        · intro x hx
          rw [List.mem_singleton.mp hx]
          exact hs
        · intro g hgm
          rcases List.mem_append.mp hgm with hgm | hgm
          · exact hG g hgm
          · rw [List.mem_singleton.mp hgm]
            exact ⟨h3.2, hg, h4, fun hmm => le_trans hmm h3.1⟩
      · rw [if_neg h4, if_neg h4]
        refine ⟨by simp [joinWith], ?_, hG⟩
        intro x hx
        rw [List.mem_singleton.mp hx]
        exact hs
    · rw [if_neg h3, if_neg h3]
      refine ⟨by simp, ?_, hG⟩
      intro x hx
      rcases List.mem_append.mp hx with hx | hx
      · exact hg x hx
      · rw [List.mem_singleton.mp hx]
        exact hs

theorem fine_fold_inv (minC maxC minS maxS : Nat) (sents : List Str) :
    ∀ (groups : List (List Str)) (gcur : List Str),
      (∀ s ∈ sents, goodSentence s) →
      (∀ s ∈ gcur, goodSentence s) →
      (∀ g ∈ groups, FineGroupOK minC minS maxS g) →
      (sents.foldl (fineStep minC maxC minS maxS)
          (groups.map (fun g => strip (joinWith ' ' g)), joinWith ' ' gcur, gcur.length)).1 =
        (sents.foldl (fineGroupStep minC maxC minS maxS) (groups, gcur)).1.map
          (fun g => strip (joinWith ' ' g)) ∧
      (sents.foldl (fineStep minC maxC minS maxS)
          (groups.map (fun g => strip (joinWith ' ' g)), joinWith ' ' gcur, gcur.length)).2.1 =
        joinWith ' ' (sents.foldl (fineGroupStep minC maxC minS maxS) (groups, gcur)).2 ∧
      (sents.foldl (fineStep minC maxC minS maxS)
          (groups.map (fun g => strip (joinWith ' ' g)), joinWith ' ' gcur, gcur.length)).2.2 =
        (sents.foldl (fineGroupStep minC maxC minS maxS) (groups, gcur)).2.length ∧
      (∀ s ∈ (sents.foldl (fineGroupStep minC maxC minS maxS) (groups, gcur)).2,
        goodSentence s) ∧
      (∀ g ∈ (sents.foldl (fineGroupStep minC maxC minS maxS) (groups, gcur)).1,
        FineGroupOK minC minS maxS g) := by
  induction sents with
  | nil =>
    intro groups gcur _ hg hG
    exact ⟨rfl, rfl, rfl, hg, hG⟩
  | cons s ss ih =>
    intro groups gcur hsent hg hG
    have hs : goodSentence s := hsent s (by simp)
    have hss : ∀ x ∈ ss, goodSentence x := fun x hx => hsent x (by simp [hx])
    obtain ⟨hstep, hg2, hG2⟩ := fineStep_rel minC maxC minS maxS groups gcur s hs hg hG
    simp only [List.foldl_cons]
    rw [hstep]
    have key := ih (fineGroupStep minC maxC minS maxS (groups, gcur) s).1
      (fineGroupStep minC maxC minS maxS (groups, gcur) s).2 hss hg2 hG2
    simpa using key

theorem fine_final_step (minC minS maxS : Nat) (chunks : List Str) (cur : Str) (cnt : Nat)
    (groups : List (List Str)) (gcur : List Str)
    (h1 : chunks = groups.map (fun g => strip (joinWith ' ' g)))
    (h2 : cur = joinWith ' ' gcur) (h3 : cnt = gcur.length)
    (h4 : ∀ s ∈ gcur, goodSentence s) (h5 : ∀ g ∈ groups, FineGroupOK minC minS maxS g) :
    (if ¬ cur.isEmpty ∧ minC ≤ cur.length ∧ minS ≤ cnt then chunks ++ [strip cur]
     else chunks) =
      (if ¬ gcur.isEmpty ∧ minC ≤ (joinWith ' ' gcur).length ∧ minS ≤ gcur.length then
        groups ++ [gcur]
       else groups).map (fun g => strip (joinWith ' ' g)) ∧
    ∀ g ∈ (if ¬ gcur.isEmpty ∧ minC ≤ (joinWith ' ' gcur).length ∧ minS ≤ gcur.length then
        groups ++ [gcur]
       else groups), FineGroupOK minC minS maxS g := by
  subst h1 h2 h3
  have hne : (joinWith ' ' gcur).isEmpty = gcur.isEmpty :=
    joinWith_isEmpty ' ' gcur (fun x hx => (h4 x hx).1)
  simp only [hne]
  by_cases hfin : ¬ gcur.isEmpty ∧ minC ≤ (joinWith ' ' gcur).length ∧ minS ≤ gcur.length
  · rw [if_pos hfin, if_pos hfin]
    constructor
    · simp
    · intro g hgm
      rcases List.mem_append.mp hgm with hgm | hgm
      · exact h5 g hgm
      · rw [List.mem_singleton.mp hgm]
        exact ⟨hfin.1, h4, hfin.2.1, fun _ => hfin.2.2⟩
  · rw [if_neg hfin, if_neg hfin]
    exact ⟨rfl, h5⟩

theorem fine_core (text : Str) (minC maxC minS maxS : Nat) :
    create_fine_chunks text minC maxC minS maxS =
      (fineChunkGroups text minC maxC minS maxS).map (fun g => strip (joinWith ' ' g)) ∧
    ∀ g ∈ fineChunkGroups text minC maxC minS maxS, FineGroupOK minC minS maxS g := by
  by_cases ht : text.isEmpty
  · constructor
    · simp [create_fine_chunks, fineChunkGroups, ht]
    · simp [fineChunkGroups, ht]
  · by_cases hsents : (fineSentences text).isEmpty
    · constructor
      · simp [create_fine_chunks, fineChunkGroups, ht, hsents]
      · simp [fineChunkGroups, ht, hsents]
    · obtain ⟨k1, k2, k3, k4, k5⟩ :=
        fine_fold_inv minC maxC minS maxS (fineSentences text) [] []
          (fineSentences_good text) (by simp) (by simp)
      simp only [List.map_nil, List.length_nil, joinWith] at k1 k2 k3
      have final := fine_final_step minC minS maxS _ _ _ _ _ k1 k2 k3 k4 k5
      constructor
      · simp only [create_fine_chunks, fineChunkGroups, ht, hsents]
        simpa using final.1
      · simp only [fineChunkGroups, ht, hsents]
        simpa using final.2

/-- Claim C3 (amended): every chunk the fine pipeline `create_fine_chunks`
    returns has at least `min_chars` characters; undersized candidates are
    dropped rather than merged into a neighbor, and a chunk may exceed
    `max_chars` when a single sentence alone does (see the counterexample). -/
theorem c3_fine_min_chars (text : Str) (minChars maxChars minSentences maxSentences : Nat) :
    ∀ c ∈ create_fine_chunks text minChars maxChars minSentences maxSentences,
      minChars ≤ c.length := by
  intro c hc
  obtain ⟨heq, hok⟩ := fine_core text minChars maxChars minSentences maxSentences
  rw [heq] at hc
  rcases List.mem_map.mp hc with ⟨g, hgm, rfl⟩
  have h := hok g hgm
  rw [strip_eq_self_of_trimmed _ (joinWith_trimmed g h.2.1)]
  exact h.2.2.1

/-- Claim C3 witness: the amended statement applied at a concrete chunk of a
    concrete text. -/
theorem c3_witness :
    "One one one. Two two.".data ∈
        create_fine_chunks "One one one. Two two.".data 5 100 1 3 ∧
      5 ≤ "One one one. Two two.".data.length :=
  ⟨by decide, c3_fine_min_chars "One one one. Two two.".data 5 100 1 3 _ (by decide)⟩

set_option maxRecDepth 100000 in
/-- Claim C3 counterexample: a single 600-character sentence is returned by
    `create_fine_chunks` as a standalone chunk of 600 characters although
    `max_chars = 500` — the produced chunk is outside the configured character
    bounds. -/
theorem c3_counterexample :
    create_fine_chunks (List.replicate 600 'a') 300 500 1 3 = [List.replicate 600 'a'] ∧
      500 < (List.replicate 600 'a').length := by decide

/-- Claim C4: with `min_sentences ≤ max_sentences`, every chunk retained by the
    Sentence-Budgeted Merger is the space-join of a recorded group of at least
    `min_sentences` sentences and has at least `min_chars` characters. -/
theorem c4_fine_minimums (text : Str) (minChars maxChars minSentences maxSentences : Nat)
    (h : minSentences ≤ maxSentences) :
    create_fine_chunks text minChars maxChars minSentences maxSentences =
      (fineChunkGroups text minChars maxChars minSentences maxSentences).map
        (fun g => strip (joinWith ' ' g)) ∧
    ∀ g ∈ fineChunkGroups text minChars maxChars minSentences maxSentences,
      minSentences ≤ g.length ∧ minChars ≤ (strip (joinWith ' ' g)).length := by
  obtain ⟨heq, hok⟩ := fine_core text minChars maxChars minSentences maxSentences
  refine ⟨heq, fun g hgm => ?_⟩
  have hG := hok g hgm
  refine ⟨hG.2.2.2 h, ?_⟩
  rw [strip_eq_self_of_trimmed _ (joinWith_trimmed g hG.2.1)]
  exact hG.2.2.1

/-- Claim C4 witness: the statement applied at a concrete text and
    configuration. -/
theorem c4_witness :
    1 ≤ 3 ∧
      (create_fine_chunks "One one one. Two two.".data 5 100 1 3 =
        (fineChunkGroups "One one one. Two two.".data 5 100 1 3).map
          (fun g => strip (joinWith ' ' g)) ∧
      ∀ g ∈ fineChunkGroups "One one one. Two two.".data 5 100 1 3,
        1 ≤ g.length ∧ 5 ≤ (strip (joinWith ' ' g)).length) :=
  ⟨by decide, c4_fine_minimums "One one one. Two two.".data 5 100 1 3 (by decide)⟩
